import Mathlib

/-!
Verification development for the state-vector quantum simulator in
src/cpp/src/quantum_simulator.cpp / quantum_simulator.hpp.

Amplitudes (std::complex<double>) are modelled as exact complex numbers.
The Eigen amplitude vector of length 2^n is modelled as a function from
basis index to amplitude; every write the C++ code performs targets an
index below the allocated size, so indices at or beyond 2^n are never
touched by any operation.  The gate-application loops are modelled as
left folds over the index range, writing into a working copy while
reading from the frozen pre-update vector, exactly as the C++ code does
with its new_amplitudes shadow copy.
-/

open Complex

/-- A 2x2 complex gate matrix (Eigen::Matrix2cd in the source).
Field gRC is the entry gate(R, C) at row R, column C. -/
structure Gate where
  g00 : ℂ
  g01 : ℂ
  g10 : ℂ
  g11 : ℂ

/-- QuantumState: a declared qubit count together with its amplitude vector,
modelled as a function from basis index to amplitude. -/
structure QuantumState where
  num_qubits : ℕ
  amplitudes : ℕ → ℂ

attribute [ext] QuantumState

/-- The allocated length of the amplitude vector:
`size_t size = 1ULL << num_qubits` in the constructor; `amplitudes_.size()`
always equals this value. -/
def QuantumState.size (s : QuantumState) : ℕ :=
  1 <<< s.num_qubits

/-- QuantumState::QuantumState(num_qubits): the vector is zero-initialized
(StateVector::Zero) and then entry 0 is set to Complex(1.0, 0.0). -/
def QuantumState.init (num_qubits : ℕ) : QuantumState :=
  { num_qubits := num_qubits
    amplitudes := fun i => if i = 0 then ⟨1, 0⟩ else 0 }

/-- One iteration of the loop body of QuantumState::apply_single_gate:
if bit `qubit` of `i` is 0, pair `i` with `j = i | (1ULL << qubit)` and,
when `j < size`, overwrite entries `i` and `j` of the working vector `na`
with the gate combination of the pre-update amplitudes `old i`, `old j`. -/
def singleGateBody (gate : Gate) (qubit : ℕ) (size : ℕ) (old : ℕ → ℂ)
    (na : ℕ → ℂ) (i : ℕ) : ℕ → ℂ :=
  if (i >>> qubit) &&& 1 = 0 then
    let j := i ||| (1 <<< qubit)
    if j < size then
      fun k =>
        if k = i then gate.g00 * old i + gate.g01 * old j
        else if k = j then gate.g10 * old i + gate.g11 * old j
        else na k
    else na
  else na

/-- The full loop of QuantumState::apply_single_gate: a left fold of the
body over i in [0, size), starting from the shadow copy of the vector. -/
def singleGatePass (gate : Gate) (qubit : ℕ) (size : ℕ) (old : ℕ → ℂ) : ℕ → ℂ :=
  (List.range size).foldl (singleGateBody gate qubit size old) old

/-- QuantumState::apply_single_gate(gate, qubit): loop i over [0, size)
updating a shadow copy of the amplitude vector, then replace the vector. -/
def QuantumState.apply_single_gate (s : QuantumState) (gate : Gate)
    (qubit : ℕ) : QuantumState :=
  { s with amplitudes := singleGatePass gate qubit s.size s.amplitudes }

/-- One iteration of the loop body of QuantumState::apply_controlled_gate:
act only when bit `control` of `i` is 1; then the same pairing on bit
`target` as in the single-qubit case. -/
def controlledGateBody (gate : Gate) (control : ℕ) (targetQ : ℕ) (size : ℕ)
    (old : ℕ → ℂ) (na : ℕ → ℂ) (i : ℕ) : ℕ → ℂ :=
  if (i >>> control) &&& 1 = 1 then
    if (i >>> targetQ) &&& 1 = 0 then
      let j := i ||| (1 <<< targetQ)
      if j < size then
        fun k =>
          if k = i then gate.g00 * old i + gate.g01 * old j
          else if k = j then gate.g10 * old i + gate.g11 * old j
          else na k
      else na
    else na
  else na

/-- The full loop of QuantumState::apply_controlled_gate. -/
def controlledGatePass (gate : Gate) (control : ℕ) (targetQ : ℕ) (size : ℕ)
    (old : ℕ → ℂ) : ℕ → ℂ :=
  (List.range size).foldl (controlledGateBody gate control targetQ size old) old

/-- QuantumState::apply_controlled_gate(gate, control, target). -/
def QuantumState.apply_controlled_gate (s : QuantumState) (gate : Gate)
    (control : ℕ) (targetQ : ℕ) : QuantumState :=
  { s with amplitudes := controlledGatePass gate control targetQ s.size s.amplitudes }

/-- QuantumState::get_probability(state): std::norm of the amplitude when
`state < amplitudes_.size()`, otherwise 0.0. -/
noncomputable def QuantumState.get_probability (s : QuantumState)
    (state : ℕ) : ℝ :=
  if state < s.size then Complex.normSq (s.amplitudes state) else 0

/-- Sum of get_probability over the whole allocated index range
(the quantity the normalization property of the spec is about). -/
noncomputable def QuantumState.totalProb (s : QuantumState) : ℝ :=
  ∑ i ∈ Finset.range s.size, s.get_probability i

/-- Gates::pauli_x. -/
def Gates.pauli_x : Gate := ⟨0, 1, 1, 0⟩

/-- Gates::pauli_y. -/
def Gates.pauli_y : Gate := ⟨0, ⟨0, -1⟩, ⟨0, 1⟩, 0⟩

/-- Gates::pauli_z. -/
def Gates.pauli_z : Gate := ⟨1, 0, 0, -1⟩

/-- Gates::hadamard. -/
noncomputable def Gates.hadamard : Gate :=
  let inv_sqrt2 : ℂ := ((1 / Real.sqrt 2 : ℝ) : ℂ)
  ⟨inv_sqrt2, inv_sqrt2, inv_sqrt2, -inv_sqrt2⟩

/-- Gates::rx(theta). -/
noncomputable def Gates.rx (theta : ℝ) : Gate :=
  let cos_half : ℝ := Real.cos (theta / 2)
  let sin_half : ℝ := Real.sin (theta / 2)
  ⟨(cos_half : ℂ), ⟨0, -sin_half⟩, ⟨0, -sin_half⟩, (cos_half : ℂ)⟩

/-- Gates::ry(theta). -/
noncomputable def Gates.ry (theta : ℝ) : Gate :=
  let cos_half : ℝ := Real.cos (theta / 2)
  let sin_half : ℝ := Real.sin (theta / 2)
  ⟨(cos_half : ℂ), (-sin_half : ℝ), (sin_half : ℝ), (cos_half : ℂ)⟩

/-- Gates::rz(theta): diagonal exp(Complex(0, -theta/2)), exp(Complex(0, theta/2)). -/
noncomputable def Gates.rz (theta : ℝ) : Gate :=
  let exp_neg : ℂ := Complex.exp ⟨0, -(theta / 2)⟩
  let exp_pos : ℂ := Complex.exp ⟨0, theta / 2⟩
  ⟨exp_neg, 0, 0, exp_pos⟩

/-- The pair write performed inside both gate-application loops at iteration
i: entries i and i | (1 << t) of the working vector receive the gate
combination of the pre-update amplitudes. -/
def pairWrite (g : Gate) (t : ℕ) (old : ℕ → ℂ) (na : ℕ → ℂ) (i : ℕ) : ℕ → ℂ :=
  fun k =>
    if k = i then g.g00 * old i + g.g01 * old (i ||| (1 <<< t))
    else if k = i ||| (1 <<< t) then g.g10 * old i + g.g11 * old (i ||| (1 <<< t))
    else na k

/-- Common shape of both loop bodies: act only when condition C holds at i,
and only when the partner index is inside the allocated vector. -/
def pairWriteBody (g : Gate) (t : ℕ) (C : ℕ → Bool) (size : ℕ) (old : ℕ → ℂ)
    (na : ℕ → ℂ) (i : ℕ) : ℕ → ℂ :=
  if C i = true then
    if i ||| (1 <<< t) < size then pairWrite g t old na i else na
  else na

/-- Operation::Type. -/
inductive OpType
  | SINGLE_GATE
  | CONTROLLED_GATE
deriving DecidableEq

/-- struct Operation. -/
structure Operation where
  type : OpType
  gate : Gate
  qubit : ℕ
  control : ℕ
  target : ℕ

/-- QuantumCircuit: declared qubit count plus the append-only operation list. -/
structure QuantumCircuit where
  num_qubits : ℕ
  operations : List Operation

/-- QuantumCircuit::h(qubit). -/
noncomputable def QuantumCircuit.h (c : QuantumCircuit) (qubit : ℕ) : QuantumCircuit :=
  { c with operations :=
      c.operations ++ [⟨OpType.SINGLE_GATE, Gates.hadamard, qubit, 0, 0⟩] }

/-- QuantumCircuit::x(qubit). -/
def QuantumCircuit.x (c : QuantumCircuit) (qubit : ℕ) : QuantumCircuit :=
  { c with operations :=
      c.operations ++ [⟨OpType.SINGLE_GATE, Gates.pauli_x, qubit, 0, 0⟩] }

/-- QuantumCircuit::y(qubit). -/
def QuantumCircuit.y (c : QuantumCircuit) (qubit : ℕ) : QuantumCircuit :=
  { c with operations :=
      c.operations ++ [⟨OpType.SINGLE_GATE, Gates.pauli_y, qubit, 0, 0⟩] }

/-- QuantumCircuit::z(qubit). -/
def QuantumCircuit.z (c : QuantumCircuit) (qubit : ℕ) : QuantumCircuit :=
  { c with operations :=
      c.operations ++ [⟨OpType.SINGLE_GATE, Gates.pauli_z, qubit, 0, 0⟩] }

/-- QuantumCircuit::rx(qubit, theta). -/
noncomputable def QuantumCircuit.rx (c : QuantumCircuit) (qubit : ℕ) (theta : ℝ) :
    QuantumCircuit :=
  { c with operations :=
      c.operations ++ [⟨OpType.SINGLE_GATE, Gates.rx theta, qubit, 0, 0⟩] }

/-- QuantumCircuit::ry(qubit, theta). -/
noncomputable def QuantumCircuit.ry (c : QuantumCircuit) (qubit : ℕ) (theta : ℝ) :
    QuantumCircuit :=
  { c with operations :=
      c.operations ++ [⟨OpType.SINGLE_GATE, Gates.ry theta, qubit, 0, 0⟩] }

/-- QuantumCircuit::rz(qubit, theta). -/
noncomputable def QuantumCircuit.rz (c : QuantumCircuit) (qubit : ℕ) (theta : ℝ) :
    QuantumCircuit :=
  { c with operations :=
      c.operations ++ [⟨OpType.SINGLE_GATE, Gates.rz theta, qubit, 0, 0⟩] }

/-- QuantumCircuit::cnot(control, target): a CONTROLLED_GATE carrying Pauli-X. -/
def QuantumCircuit.cnot (c : QuantumCircuit) (control : ℕ) (targetQ : ℕ) :
    QuantumCircuit :=
  { c with operations :=
      c.operations ++ [⟨OpType.CONTROLLED_GATE, Gates.pauli_x, 0, control, targetQ⟩] }

/-- QuantumCircuit::execute: build a fresh state for the declared qubit count
and replay every stored operation in order, dispatching on the operation type. -/
def QuantumCircuit.execute (c : QuantumCircuit) : QuantumState :=
  c.operations.foldl
    (fun state op =>
      if op.type = OpType.SINGLE_GATE then
        state.apply_single_gate op.gate op.qubit
      else
        state.apply_controlled_gate op.gate op.control op.target)
    (QuantumState.init c.num_qubits)

/-- A 2x2 matrix with orthonormal columns (g dagger g = identity), stated as
complex equations; conj is complex conjugation.  All gates the circuit
builders construct satisfy this. -/
def Gate.unitary (g : Gate) : Prop :=
  g.g00 * (starRingEnd ℂ) g.g00 + g.g10 * (starRingEnd ℂ) g.g10 = 1 ∧
  g.g01 * (starRingEnd ℂ) g.g01 + g.g11 * (starRingEnd ℂ) g.g11 = 1 ∧
  g.g00 * (starRingEnd ℂ) g.g01 + g.g10 * (starRingEnd ℂ) g.g11 = 0

/-- Circuits built solely from the builder interface of QuantumCircuit with
in-range qubit indices, starting from a freshly constructed circuit. -/
inductive BuiltFromBuilders : QuantumCircuit → Prop
  | empty (n : ℕ) : BuiltFromBuilders ⟨n, []⟩
  | hgate (c : QuantumCircuit) (q : ℕ) :
      BuiltFromBuilders c → q < c.num_qubits → BuiltFromBuilders (c.h q)
  | xgate (c : QuantumCircuit) (q : ℕ) :
      BuiltFromBuilders c → q < c.num_qubits → BuiltFromBuilders (c.x q)
  | ygate (c : QuantumCircuit) (q : ℕ) :
      BuiltFromBuilders c → q < c.num_qubits → BuiltFromBuilders (c.y q)
  | zgate (c : QuantumCircuit) (q : ℕ) :
      BuiltFromBuilders c → q < c.num_qubits → BuiltFromBuilders (c.z q)
  | rxgate (c : QuantumCircuit) (q : ℕ) (theta : ℝ) :
      BuiltFromBuilders c → q < c.num_qubits → BuiltFromBuilders (c.rx q theta)
  | rygate (c : QuantumCircuit) (q : ℕ) (theta : ℝ) :
      BuiltFromBuilders c → q < c.num_qubits → BuiltFromBuilders (c.ry q theta)
  | rzgate (c : QuantumCircuit) (q : ℕ) (theta : ℝ) :
      BuiltFromBuilders c → q < c.num_qubits → BuiltFromBuilders (c.rz q theta)
  | cnotgate (c : QuantumCircuit) (ctrl tgt : ℕ) :
      BuiltFromBuilders c → ctrl < c.num_qubits → tgt < c.num_qubits →
      BuiltFromBuilders (c.cnot ctrl tgt)

/-! ### Bit-arithmetic helper lemmas -/

lemma shift_and_one_eq_zero (x q : ℕ) :
    ((x >>> q) &&& 1 = 0) ↔ x.testBit q = false := by
  rw [Nat.and_one_is_mod, Nat.shiftRight_eq_div_pow, Nat.testBit_to_div_mod]
  simp only [decide_eq_false_iff_not]
  omega

lemma shift_and_one_eq_one (x q : ℕ) :
    ((x >>> q) &&& 1 = 1) ↔ x.testBit q = true := by
  rw [Nat.and_one_is_mod, Nat.shiftRight_eq_div_pow, Nat.testBit_to_div_mod]
  simp only [decide_eq_true_eq]

lemma lorPow_testBit (x q : ℕ) : (x ||| (1 <<< q)).testBit q = true := by
  simp [Nat.testBit_lor, Nat.one_shiftLeft, Nat.testBit_two_pow_self]

lemma xorPow_testBit (x q : ℕ) :
    (x ^^^ (1 <<< q)).testBit q = !(x.testBit q) := by
  simp [Nat.testBit_xor, Nat.one_shiftLeft, Nat.testBit_two_pow_self]

lemma lorPow_xor (x q : ℕ) (h : x.testBit q = false) :
    (x ||| (1 <<< q)) ^^^ (1 <<< q) = x := by
  apply Nat.eq_of_testBit_eq
  intro i
  rcases eq_or_ne i q with rfl | hi
  · simp [Nat.testBit_xor, Nat.testBit_lor, Nat.one_shiftLeft,
      Nat.testBit_two_pow_self, h]
  · simp [Nat.testBit_xor, Nat.testBit_lor, Nat.one_shiftLeft,
      Nat.testBit_two_pow_of_ne (Ne.symm hi)]

lemma xorPow_lor (x q : ℕ) (h : x.testBit q = true) :
    (x ^^^ (1 <<< q)) ||| (1 <<< q) = x := by
  apply Nat.eq_of_testBit_eq
  intro i
  rcases eq_or_ne i q with rfl | hi
  · simp [Nat.testBit_xor, Nat.testBit_lor, Nat.one_shiftLeft,
      Nat.testBit_two_pow_self, h]
  · simp [Nat.testBit_xor, Nat.testBit_lor, Nat.one_shiftLeft,
      Nat.testBit_two_pow_of_ne (Ne.symm hi)]

lemma lorPow_ne (x q : ℕ) (h : x.testBit q = false) : x ||| (1 <<< q) ≠ x := by
  intro he
  have hb := lorPow_testBit x q
  rw [he, h] at hb
  exact Bool.false_ne_true hb

lemma testBit_of_ge (x n q : ℕ) (hx : x < 2 ^ n) (hq : n ≤ q) :
    x.testBit q = false :=
  Nat.testBit_lt_two_pow (lt_of_lt_of_le hx (Nat.pow_le_pow_right (by omega) hq))

lemma lorPow_lt (x n q : ℕ) (hx : x < 2 ^ n) (hq : q < n) :
    x ||| (1 <<< q) < 2 ^ n := by
  rw [Nat.one_shiftLeft]
  exact Nat.bitwise_lt hx (Nat.pow_lt_pow_right (by omega) hq)

lemma xorPow_lt (x n q : ℕ) (hx : x < 2 ^ n) (hq : q < n) :
    x ^^^ (1 <<< q) < 2 ^ n := by
  rw [Nat.one_shiftLeft]
  exact Nat.bitwise_lt hx (Nat.pow_lt_pow_right (by omega) hq)

lemma two_pow_le_lorPow (x q : ℕ) : 2 ^ q ≤ x ||| (1 <<< q) := by
  by_contra hlt
  push_neg at hlt
  have hfb : (x ||| (1 <<< q)).testBit q = false :=
    Nat.testBit_lt_two_pow hlt
  rw [lorPow_testBit] at hfb
  exact Bool.noConfusion hfb

/-! ### Characterization of the gate-application loops -/

lemma pairWrite_foldl_char (g : Gate) (t : ℕ) (C : ℕ → Bool) (size : ℕ)
    (old : ℕ → ℂ) (hC : ∀ i, C i = true → i.testBit t = false) (m : ℕ) (k : ℕ) :
    (List.range m).foldl (pairWriteBody g t C size old) old k =
      if C k = true ∧ k < m ∧ k ||| (1 <<< t) < size then
        g.g00 * old k + g.g01 * old (k ||| (1 <<< t))
      else if C (k ^^^ (1 <<< t)) = true ∧ k.testBit t = true ∧
          k ^^^ (1 <<< t) < m ∧ k < size then
        g.g10 * old (k ^^^ (1 <<< t)) + g.g11 * old k
      else old k := by
  induction m with
  | zero => simp
  | succ m ih =>
      rw [List.range_succ, List.foldl_append, List.foldl_cons, List.foldl_nil]
      by_cases hCm : C m = true
      · have hbm : m.testBit t = false := hC m hCm
        by_cases hj : m ||| (1 <<< t) < size
        · rw [pairWriteBody, if_pos hCm, if_pos hj]
          by_cases hkm : k = m
          · subst hkm
            rw [if_pos ⟨hCm, Nat.lt_succ_of_le le_rfl, hj⟩]
            simp [pairWrite]
          · by_cases hkj : k = m ||| (1 <<< t)
            · subst hkj
              have hxor : (m ||| (1 <<< t)) ^^^ (1 <<< t) = m := lorPow_xor m t hbm
              have hne1 : ¬(C (m ||| (1 <<< t)) = true ∧ m ||| (1 <<< t) < m + 1 ∧
                  (m ||| (1 <<< t)) ||| (1 <<< t) < size) := by
                rintro ⟨hc1, -, -⟩
                have hb := hC _ hc1
                rw [lorPow_testBit] at hb
                exact Bool.noConfusion hb
              have hpos2 : C ((m ||| (1 <<< t)) ^^^ (1 <<< t)) = true ∧
                  (m ||| (1 <<< t)).testBit t = true ∧
                  (m ||| (1 <<< t)) ^^^ (1 <<< t) < m + 1 ∧ m ||| (1 <<< t) < size := by
                refine ⟨?_, lorPow_testBit m t, ?_, hj⟩
                · rw [hxor]; exact hCm
                · rw [hxor]; omega
              rw [if_neg hne1, if_pos hpos2, hxor]
              simp [pairWrite, hkm]
            · rw [show pairWrite g t old (List.foldl (pairWriteBody g t C size old)
                  old (List.range m)) m k =
                  List.foldl (pairWriteBody g t C size old) old (List.range m) k from
                  by simp only [pairWrite, if_neg hkm, if_neg hkj]]
              rw [ih]
              have e1 : (C k = true ∧ k < m ∧ k ||| (1 <<< t) < size) ↔
                  (C k = true ∧ k < m + 1 ∧ k ||| (1 <<< t) < size) := by
                constructor
                · rintro ⟨a, b, c⟩; exact ⟨a, by omega, c⟩
                · rintro ⟨a, b, c⟩
                  refine ⟨a, ?_, c⟩
                  rcases Nat.lt_succ_iff_lt_or_eq.mp b with hb | hb
                  · exact hb
                  · exact absurd hb hkm
              have e2 : (C (k ^^^ (1 <<< t)) = true ∧ k.testBit t = true ∧
                    k ^^^ (1 <<< t) < m ∧ k < size) ↔
                  (C (k ^^^ (1 <<< t)) = true ∧ k.testBit t = true ∧
                    k ^^^ (1 <<< t) < m + 1 ∧ k < size) := by
                constructor
                · rintro ⟨a, b, c, d⟩; exact ⟨a, b, by omega, d⟩
                · rintro ⟨a, b, c, d⟩
                  refine ⟨a, b, ?_, d⟩
                  rcases Nat.lt_succ_iff_lt_or_eq.mp c with hc | hc
                  · exact hc
                  · exfalso
                    apply hkj
                    rw [← hc, xorPow_lor k t b]
              rw [if_congr e1 rfl (if_congr e2 rfl rfl)]
        · rw [pairWriteBody, if_pos hCm, if_neg hj, ih]
          have e1 : (C k = true ∧ k < m ∧ k ||| (1 <<< t) < size) ↔
              (C k = true ∧ k < m + 1 ∧ k ||| (1 <<< t) < size) := by
            constructor
            · rintro ⟨a, b, c⟩; exact ⟨a, by omega, c⟩
            · rintro ⟨a, b, c⟩
              refine ⟨a, ?_, c⟩
              rcases Nat.lt_succ_iff_lt_or_eq.mp b with hb | hb
              · exact hb
              · exact absurd (hb ▸ c) hj
          have e2 : (C (k ^^^ (1 <<< t)) = true ∧ k.testBit t = true ∧
                k ^^^ (1 <<< t) < m ∧ k < size) ↔
              (C (k ^^^ (1 <<< t)) = true ∧ k.testBit t = true ∧
                k ^^^ (1 <<< t) < m + 1 ∧ k < size) := by
            constructor
            · rintro ⟨a, b, c, d⟩; exact ⟨a, b, by omega, d⟩
            · rintro ⟨a, b, c, d⟩
              refine ⟨a, b, ?_, d⟩
              rcases Nat.lt_succ_iff_lt_or_eq.mp c with hc | hc
              · exact hc
              · exfalso
                apply hj
                rw [← hc, xorPow_lor k t b]
                exact d
          rw [if_congr e1 rfl (if_congr e2 rfl rfl)]
      · rw [pairWriteBody, if_neg hCm, ih]
        have e1 : (C k = true ∧ k < m ∧ k ||| (1 <<< t) < size) ↔
            (C k = true ∧ k < m + 1 ∧ k ||| (1 <<< t) < size) := by
          constructor
          · rintro ⟨a, b, c⟩; exact ⟨a, by omega, c⟩
          · rintro ⟨a, b, c⟩
            refine ⟨a, ?_, c⟩
            rcases Nat.lt_succ_iff_lt_or_eq.mp b with hb | hb
            · exact hb
            · exact absurd (hb ▸ a) hCm
        have e2 : (C (k ^^^ (1 <<< t)) = true ∧ k.testBit t = true ∧
              k ^^^ (1 <<< t) < m ∧ k < size) ↔
            (C (k ^^^ (1 <<< t)) = true ∧ k.testBit t = true ∧
              k ^^^ (1 <<< t) < m + 1 ∧ k < size) := by
          constructor
          · rintro ⟨a, b, c, d⟩; exact ⟨a, b, by omega, d⟩
          · rintro ⟨a, b, c, d⟩
            refine ⟨a, b, ?_, d⟩
            rcases Nat.lt_succ_iff_lt_or_eq.mp c with hc | hc
            · exact hc
            · exact absurd (hc ▸ a) hCm
        rw [if_congr e1 rfl (if_congr e2 rfl rfl)]

lemma singleGateBody_eq_pairWriteBody (g : Gate) (q size : ℕ) (old : ℕ → ℂ) :
    singleGateBody g q size old =
      pairWriteBody g q (fun i => !(i.testBit q)) size old := by
  funext na i
  by_cases hb : i.testBit q
  · have h0 : ¬((i >>> q) &&& 1 = 0) := by
      rw [shift_and_one_eq_zero]
      simp [hb]
    have h1 : ¬((fun i => !(i.testBit q)) i = true) := by simp [hb]
    rw [singleGateBody, pairWriteBody, if_neg h0, if_neg h1]
  · have h0 : (i >>> q) &&& 1 = 0 := by
      rw [shift_and_one_eq_zero]
      simp [hb]
    have h1 : ((fun i => !(i.testBit q)) i = true) := by simp [hb]
    rw [singleGateBody, pairWriteBody, if_pos h0, if_pos h1]
    rfl

lemma singleGatePass_char (g : Gate) (q size : ℕ) (old : ℕ → ℂ) (k : ℕ) :
    singleGatePass g q size old k =
      if k.testBit q = false ∧ k < size ∧ k ||| (1 <<< q) < size then
        g.g00 * old k + g.g01 * old (k ||| (1 <<< q))
      else if k.testBit q = true ∧ k ^^^ (1 <<< q) < size ∧ k < size then
        g.g10 * old (k ^^^ (1 <<< q)) + g.g11 * old k
      else old k := by
  rw [singleGatePass, singleGateBody_eq_pairWriteBody]
  rw [pairWrite_foldl_char g q (fun i => !(i.testBit q)) size old
    (fun i hi => by simpa using hi) size k]
  have e1 : ((!k.testBit q) = true ∧ k < size ∧ k ||| (1 <<< q) < size) ↔
      (k.testBit q = false ∧ k < size ∧ k ||| (1 <<< q) < size) := by
    simp
  have e2 : ((!(k ^^^ (1 <<< q)).testBit q) = true ∧ k.testBit q = true ∧
        k ^^^ (1 <<< q) < size ∧ k < size) ↔
      (k.testBit q = true ∧ k ^^^ (1 <<< q) < size ∧ k < size) := by
    rw [xorPow_testBit]
    constructor
    · rintro ⟨-, b, c, d⟩; exact ⟨b, c, d⟩
    · rintro ⟨b, c, d⟩
      refine ⟨?_, b, c, d⟩
      rw [b]
      rfl
  rw [if_congr e1 rfl (if_congr e2 rfl rfl)]

lemma controlledGateBody_eq_pairWriteBody (g : Gate) (c t size : ℕ) (old : ℕ → ℂ) :
    controlledGateBody g c t size old =
      pairWriteBody g t (fun i => i.testBit c && !(i.testBit t)) size old := by
  funext na i
  by_cases hc : i.testBit c
  · have h1 : (i >>> c) &&& 1 = 1 := by
      rw [shift_and_one_eq_one]
      exact hc
    by_cases hb : i.testBit t
    · have h0 : ¬((i >>> t) &&& 1 = 0) := by
        rw [shift_and_one_eq_zero]
        simp [hb]
      have h2 : ¬((fun i => i.testBit c && !(i.testBit t)) i = true) := by
        simp [hc, hb]
      rw [controlledGateBody, pairWriteBody, if_pos h1, if_neg h0, if_neg h2]
    · have h0 : (i >>> t) &&& 1 = 0 := by
        rw [shift_and_one_eq_zero]
        simp [hb]
      have h2 : ((fun i => i.testBit c && !(i.testBit t)) i = true) := by
        simp [hc, hb]
      rw [controlledGateBody, pairWriteBody, if_pos h1, if_pos h0, if_pos h2]
      rfl
  · have h1 : ¬((i >>> c) &&& 1 = 1) := by
      rw [shift_and_one_eq_one]
      simp [hc]
    have h2 : ¬((fun i => i.testBit c && !(i.testBit t)) i = true) := by
      simp [hc]
    rw [controlledGateBody, pairWriteBody, if_neg h1, if_neg h2]

lemma controlledGatePass_char (g : Gate) (c t size : ℕ) (old : ℕ → ℂ) (k : ℕ) :
    controlledGatePass g c t size old k =
      if k.testBit c = true ∧ k.testBit t = false ∧ k < size ∧
          k ||| (1 <<< t) < size then
        g.g00 * old k + g.g01 * old (k ||| (1 <<< t))
      else if (k ^^^ (1 <<< t)).testBit c = true ∧ k.testBit t = true ∧
          k ^^^ (1 <<< t) < size ∧ k < size then
        g.g10 * old (k ^^^ (1 <<< t)) + g.g11 * old k
      else old k := by
  rw [controlledGatePass, controlledGateBody_eq_pairWriteBody]
  rw [pairWrite_foldl_char g t (fun i => i.testBit c && !(i.testBit t)) size old
    (fun i hi => by
      simp only [Bool.and_eq_true, Bool.not_eq_true'] at hi
      exact hi.2) size k]
  have e1 : ((k.testBit c && !(k.testBit t)) = true ∧ k < size ∧
        k ||| (1 <<< t) < size) ↔
      (k.testBit c = true ∧ k.testBit t = false ∧ k < size ∧
        k ||| (1 <<< t) < size) := by
    rw [Bool.and_eq_true, Bool.not_eq_true']
    tauto
  have e2 : (((k ^^^ (1 <<< t)).testBit c && !((k ^^^ (1 <<< t)).testBit t)) = true ∧
        k.testBit t = true ∧ k ^^^ (1 <<< t) < size ∧ k < size) ↔
      ((k ^^^ (1 <<< t)).testBit c = true ∧ k.testBit t = true ∧
        k ^^^ (1 <<< t) < size ∧ k < size) := by
    rw [Bool.and_eq_true, Bool.not_eq_true', xorPow_testBit]
    constructor
    · rintro ⟨⟨a, -⟩, b, cc, d⟩; exact ⟨a, b, cc, d⟩
    · rintro ⟨a, b, cc, d⟩
      refine ⟨⟨a, ?_⟩, b, cc, d⟩
      rw [b]
      rfl
  rw [if_congr e1 rfl (if_congr e2 rfl rfl)]

/-! ### Further bit helpers -/

lemma lorPow_testBit_ne (x t c : ℕ) (hne : c ≠ t) :
    (x ||| (1 <<< t)).testBit c = x.testBit c := by
  simp [Nat.testBit_lor, Nat.one_shiftLeft, Nat.testBit_two_pow_of_ne (Ne.symm hne)]

lemma xorPow_testBit_ne (x t c : ℕ) (hne : c ≠ t) :
    (x ^^^ (1 <<< t)).testBit c = x.testBit c := by
  simp [Nat.testBit_xor, Nat.one_shiftLeft, Nat.testBit_two_pow_of_ne (Ne.symm hne)]

/-! ### State-level consequences of the loop characterizations -/

lemma size_eq_two_pow (s : QuantumState) : s.size = 2 ^ s.num_qubits :=
  Nat.one_shiftLeft _

lemma apply_single_gate_num_qubits (s : QuantumState) (g : Gate) (q : ℕ) :
    (s.apply_single_gate g q).num_qubits = s.num_qubits := rfl

lemma apply_controlled_gate_num_qubits (s : QuantumState) (g : Gate) (c t : ℕ) :
    (s.apply_controlled_gate g c t).num_qubits = s.num_qubits := rfl

lemma apply_single_gate_amp (s : QuantumState) (g : Gate) (q k : ℕ) :
    (s.apply_single_gate g q).amplitudes k =
      if k.testBit q = false ∧ k < s.size ∧ k ||| (1 <<< q) < s.size then
        g.g00 * s.amplitudes k + g.g01 * s.amplitudes (k ||| (1 <<< q))
      else if k.testBit q = true ∧ k ^^^ (1 <<< q) < s.size ∧ k < s.size then
        g.g10 * s.amplitudes (k ^^^ (1 <<< q)) + g.g11 * s.amplitudes k
      else s.amplitudes k :=
  singleGatePass_char g q s.size s.amplitudes k

lemma apply_controlled_gate_amp (s : QuantumState) (g : Gate) (c t k : ℕ) :
    (s.apply_controlled_gate g c t).amplitudes k =
      if k.testBit c = true ∧ k.testBit t = false ∧ k < s.size ∧
          k ||| (1 <<< t) < s.size then
        g.g00 * s.amplitudes k + g.g01 * s.amplitudes (k ||| (1 <<< t))
      else if (k ^^^ (1 <<< t)).testBit c = true ∧ k.testBit t = true ∧
          k ^^^ (1 <<< t) < s.size ∧ k < s.size then
        g.g10 * s.amplitudes (k ^^^ (1 <<< t)) + g.g11 * s.amplitudes k
      else s.amplitudes k :=
  controlledGatePass_char g c t s.size s.amplitudes k

lemma apply_single_gate_pair_lo (s : QuantumState) (g : Gate) (q : ℕ)
    (hq : q < s.num_qubits) (i : ℕ) (hi : i < 2 ^ s.num_qubits)
    (hb : i.testBit q = false) :
    (s.apply_single_gate g q).amplitudes i =
      g.g00 * s.amplitudes i + g.g01 * s.amplitudes (i ||| (1 <<< q)) := by
  rw [apply_single_gate_amp, if_pos]
  refine ⟨hb, ?_, ?_⟩
  · rw [size_eq_two_pow]; exact hi
  · rw [size_eq_two_pow]; exact lorPow_lt i s.num_qubits q hi hq

lemma apply_single_gate_pair_hi (s : QuantumState) (g : Gate) (q : ℕ)
    (hq : q < s.num_qubits) (i : ℕ) (hi : i < 2 ^ s.num_qubits)
    (hb : i.testBit q = false) :
    (s.apply_single_gate g q).amplitudes (i ||| (1 <<< q)) =
      g.g10 * s.amplitudes i + g.g11 * s.amplitudes (i ||| (1 <<< q)) := by
  have hx : (i ||| (1 <<< q)) ^^^ (1 <<< q) = i := lorPow_xor i q hb
  rw [apply_single_gate_amp]
  rw [if_neg, if_pos]
  · rw [hx]
  · refine ⟨lorPow_testBit i q, ?_, ?_⟩
    · rw [hx, size_eq_two_pow]; exact hi
    · rw [size_eq_two_pow]; exact lorPow_lt i s.num_qubits q hi hq
  · rintro ⟨hbad, -, -⟩
    rw [lorPow_testBit] at hbad
    exact Bool.noConfusion hbad

lemma apply_single_gate_oob (s : QuantumState) (g : Gate) (q : ℕ)
    (hq : s.num_qubits ≤ q) : s.apply_single_gate g q = s := by
  refine QuantumState.ext rfl ?_
  funext k
  rw [show (s.apply_single_gate g q).amplitudes k =
    if k.testBit q = false ∧ k < s.size ∧ k ||| (1 <<< q) < s.size then
      g.g00 * s.amplitudes k + g.g01 * s.amplitudes (k ||| (1 <<< q))
    else if k.testBit q = true ∧ k ^^^ (1 <<< q) < s.size ∧ k < s.size then
      g.g10 * s.amplitudes (k ^^^ (1 <<< q)) + g.g11 * s.amplitudes k
    else s.amplitudes k from apply_single_gate_amp s g q k]
  have hsz : s.size = 2 ^ s.num_qubits := size_eq_two_pow s
  have hn1 : ¬(k.testBit q = false ∧ k < s.size ∧ k ||| (1 <<< q) < s.size) := by
    rintro ⟨-, -, hj⟩
    have h1 : 2 ^ q ≤ k ||| (1 <<< q) := two_pow_le_lorPow k q
    have h2 : s.size ≤ 2 ^ q := by
      rw [hsz]
      exact Nat.pow_le_pow_right (by omega) hq
    omega
  have hn2 : ¬(k.testBit q = true ∧ k ^^^ (1 <<< q) < s.size ∧ k < s.size) := by
    rintro ⟨hb, -, hk⟩
    have hfk : k.testBit q = false :=
      testBit_of_ge k s.num_qubits q (by rw [← hsz]; exact hk) hq
    rw [hb] at hfk
    exact Bool.noConfusion hfk
  rw [if_neg hn1, if_neg hn2]

lemma apply_controlled_gate_eq_noop (s : QuantumState) (g : Gate) (q : ℕ) :
    s.apply_controlled_gate g q q = s := by
  refine QuantumState.ext rfl ?_
  funext k
  rw [show (s.apply_controlled_gate g q q).amplitudes k = _ from
    apply_controlled_gate_amp s g q q k]
  have hn1 : ¬(k.testBit q = true ∧ k.testBit q = false ∧ k < s.size ∧
      k ||| (1 <<< q) < s.size) := by
    rintro ⟨h1, h2, -, -⟩
    rw [h1] at h2
    exact Bool.noConfusion h2
  have hn2 : ¬((k ^^^ (1 <<< q)).testBit q = true ∧ k.testBit q = true ∧
      k ^^^ (1 <<< q) < s.size ∧ k < s.size) := by
    rintro ⟨h1, h2, -, -⟩
    rw [xorPow_testBit, h2] at h1
    exact Bool.noConfusion h1
  rw [if_neg hn1, if_neg hn2]

lemma apply_controlled_gate_oob_control (s : QuantumState) (g : Gate) (c t : ℕ)
    (hc : s.num_qubits ≤ c) : s.apply_controlled_gate g c t = s := by
  refine QuantumState.ext rfl ?_
  funext k
  rw [show (s.apply_controlled_gate g c t).amplitudes k = _ from
    apply_controlled_gate_amp s g c t k]
  have hsz : s.size = 2 ^ s.num_qubits := size_eq_two_pow s
  have hn1 : ¬(k.testBit c = true ∧ k.testBit t = false ∧ k < s.size ∧
      k ||| (1 <<< t) < s.size) := by
    rintro ⟨h1, -, hk, -⟩
    have hfk : k.testBit c = false :=
      testBit_of_ge k s.num_qubits c (by rw [← hsz]; exact hk) hc
    rw [h1] at hfk
    exact Bool.noConfusion hfk
  have hn2 : ¬((k ^^^ (1 <<< t)).testBit c = true ∧ k.testBit t = true ∧
      k ^^^ (1 <<< t) < s.size ∧ k < s.size) := by
    rintro ⟨h1, -, hx, -⟩
    have hfk : (k ^^^ (1 <<< t)).testBit c = false :=
      testBit_of_ge _ s.num_qubits c (by rw [← hsz]; exact hx) hc
    rw [h1] at hfk
    exact Bool.noConfusion hfk
  rw [if_neg hn1, if_neg hn2]

lemma apply_controlled_gate_oob_target (s : QuantumState) (g : Gate) (c t : ℕ)
    (ht : s.num_qubits ≤ t) : s.apply_controlled_gate g c t = s := by
  refine QuantumState.ext rfl ?_
  funext k
  rw [show (s.apply_controlled_gate g c t).amplitudes k = _ from
    apply_controlled_gate_amp s g c t k]
  have hsz : s.size = 2 ^ s.num_qubits := size_eq_two_pow s
  have hn1 : ¬(k.testBit c = true ∧ k.testBit t = false ∧ k < s.size ∧
      k ||| (1 <<< t) < s.size) := by
    rintro ⟨-, -, -, hj⟩
    have h1 : 2 ^ t ≤ k ||| (1 <<< t) := two_pow_le_lorPow k t
    have h2 : s.size ≤ 2 ^ t := by
      rw [hsz]
      exact Nat.pow_le_pow_right (by omega) ht
    omega
  have hn2 : ¬((k ^^^ (1 <<< t)).testBit c = true ∧ k.testBit t = true ∧
      k ^^^ (1 <<< t) < s.size ∧ k < s.size) := by
    rintro ⟨-, h2, -, hk⟩
    have hfk : k.testBit t = false :=
      testBit_of_ge k s.num_qubits t (by rw [← hsz]; exact hk) ht
    rw [h2] at hfk
    exact Bool.noConfusion hfk
  rw [if_neg hn1, if_neg hn2]

lemma apply_controlled_gate_frame (s : QuantumState) (g : Gate) (c t : ℕ)
    (hne : c ≠ t) (k : ℕ) (hk0 : k.testBit c = false) :
    (s.apply_controlled_gate g c t).amplitudes k = s.amplitudes k := by
  rw [show (s.apply_controlled_gate g c t).amplitudes k = _ from
    apply_controlled_gate_amp s g c t k]
  have hn1 : ¬(k.testBit c = true ∧ k.testBit t = false ∧ k < s.size ∧
      k ||| (1 <<< t) < s.size) := by
    rintro ⟨h1, -, -, -⟩
    rw [hk0] at h1
    exact Bool.noConfusion h1
  have hn2 : ¬((k ^^^ (1 <<< t)).testBit c = true ∧ k.testBit t = true ∧
      k ^^^ (1 <<< t) < s.size ∧ k < s.size) := by
    rintro ⟨h1, -, -, -⟩
    rw [xorPow_testBit_ne k t c hne, hk0] at h1
    exact Bool.noConfusion h1
  rw [if_neg hn1, if_neg hn2]

lemma apply_controlled_gate_pair_lo (s : QuantumState) (g : Gate) (c t : ℕ)
    (ht : t < s.num_qubits) (i : ℕ) (hi : i < 2 ^ s.num_qubits)
    (hic : i.testBit c = true) (hit : i.testBit t = false) :
    (s.apply_controlled_gate g c t).amplitudes i =
      g.g00 * s.amplitudes i + g.g01 * s.amplitudes (i ||| (1 <<< t)) := by
  rw [show (s.apply_controlled_gate g c t).amplitudes i = _ from
    apply_controlled_gate_amp s g c t i]
  rw [if_pos]
  refine ⟨hic, hit, ?_, ?_⟩
  · rw [size_eq_two_pow]; exact hi
  · rw [size_eq_two_pow]; exact lorPow_lt i s.num_qubits t hi ht

lemma apply_controlled_gate_pair_hi (s : QuantumState) (g : Gate) (c t : ℕ)
    (ht : t < s.num_qubits) (hne : c ≠ t) (i : ℕ) (hi : i < 2 ^ s.num_qubits)
    (hic : i.testBit c = true) (hit : i.testBit t = false) :
    (s.apply_controlled_gate g c t).amplitudes (i ||| (1 <<< t)) =
      g.g10 * s.amplitudes i + g.g11 * s.amplitudes (i ||| (1 <<< t)) := by
  have hx : (i ||| (1 <<< t)) ^^^ (1 <<< t) = i := lorPow_xor i t hit
  rw [show (s.apply_controlled_gate g c t).amplitudes (i ||| (1 <<< t)) = _ from
    apply_controlled_gate_amp s g c t (i ||| (1 <<< t))]
  have hn1 : ¬((i ||| (1 <<< t)).testBit c = true ∧
      (i ||| (1 <<< t)).testBit t = false ∧ i ||| (1 <<< t) < s.size ∧
      (i ||| (1 <<< t)) ||| (1 <<< t) < s.size) := by
    rintro ⟨-, h2, -, -⟩
    rw [lorPow_testBit] at h2
    exact Bool.noConfusion h2
  rw [if_neg hn1, if_pos]
  · rw [hx]
  · refine ⟨?_, lorPow_testBit i t, ?_, ?_⟩
    · rw [hx]; exact hic
    · rw [hx, size_eq_two_pow]; exact hi
    · rw [size_eq_two_pow]; exact lorPow_lt i s.num_qubits t hi ht

/-! ### Structural lemmas about execute -/

lemma execute_nil (n : ℕ) :
    QuantumCircuit.execute ⟨n, []⟩ = QuantumState.init n := rfl

lemma execute_append (n : ℕ) (ops : List Operation) (op : Operation) :
    QuantumCircuit.execute ⟨n, ops ++ [op]⟩ =
      if op.type = OpType.SINGLE_GATE then
        (QuantumCircuit.execute ⟨n, ops⟩).apply_single_gate op.gate op.qubit
      else
        (QuantumCircuit.execute ⟨n, ops⟩).apply_controlled_gate op.gate
          op.control op.target := by
  simp only [QuantumCircuit.execute, List.foldl_append, List.foldl_cons, List.foldl_nil]

lemma foldl_ops_num_qubits (ops : List Operation) (s : QuantumState) :
    (ops.foldl (fun state op =>
      if op.type = OpType.SINGLE_GATE then
        state.apply_single_gate op.gate op.qubit
      else
        state.apply_controlled_gate op.gate op.control op.target) s).num_qubits
      = s.num_qubits := by
  induction ops generalizing s with
  | nil => rfl
  | cons op ops ih =>
      rw [List.foldl_cons, ih]
      split <;> rfl

lemma execute_num_qubits (c : QuantumCircuit) :
    c.execute.num_qubits = c.num_qubits := by
  rw [QuantumCircuit.execute, foldl_ops_num_qubits]
  rfl

/-! ### Unitarity of the gate library -/

lemma unitary_pair_normSq (g : Gate) (hg : g.unitary) (a b : ℂ) :
    Complex.normSq (g.g00 * a + g.g01 * b) +
      Complex.normSq (g.g10 * a + g.g11 * b) =
      Complex.normSq a + Complex.normSq b := by
  obtain ⟨h1, h2, h3⟩ := hg
  have h3' : (starRingEnd ℂ) g.g00 * g.g01 + (starRingEnd ℂ) g.g10 * g.g11 = 0 := by
    have hc := congrArg (starRingEnd ℂ) h3
    simpa [map_add, map_mul, mul_comm] using hc
  have key : (g.g00 * a + g.g01 * b) * (starRingEnd ℂ) (g.g00 * a + g.g01 * b) +
      (g.g10 * a + g.g11 * b) * (starRingEnd ℂ) (g.g10 * a + g.g11 * b) =
      a * (starRingEnd ℂ) a + b * (starRingEnd ℂ) b := by
    simp only [map_add, map_mul]
    linear_combination (a * (starRingEnd ℂ) a) * h1 + (b * (starRingEnd ℂ) b) * h2 +
      (a * (starRingEnd ℂ) b) * h3 + ((starRingEnd ℂ) a * b) * h3'
  rw [Complex.mul_conj, Complex.mul_conj, Complex.mul_conj, Complex.mul_conj] at key
  exact_mod_cast key

lemma pauli_x_unitary : Gates.pauli_x.unitary := by
  refine ⟨?_, ?_, ?_⟩ <;> simp [Gates.pauli_x, Gate.unitary]

lemma pauli_y_unitary : Gates.pauli_y.unitary := by
  have hI : (⟨0, 1⟩ : ℂ) = Complex.I := rfl
  have hnI : (⟨0, -1⟩ : ℂ) = -Complex.I := by
    rw [Complex.ext_iff]
    simp
  refine ⟨?_, ?_, ?_⟩ <;>
    simp only [Gates.pauli_y, hI, hnI, map_neg, Complex.conj_I, map_zero,
      mul_zero, zero_mul, add_zero, zero_add, mul_neg, neg_mul, neg_neg,
      Complex.I_mul_I]

lemma pauli_z_unitary : Gates.pauli_z.unitary := by
  refine ⟨?_, ?_, ?_⟩ <;> simp [Gates.pauli_z, Gate.unitary]

lemma hadamard_unitary : Gates.hadamard.unitary := by
  have hmul : Real.sqrt 2 * Real.sqrt 2 = 2 := Real.mul_self_sqrt (by norm_num)
  simp only [Gate.unitary, Gates.hadamard]
  generalize hv : (1 / Real.sqrt 2 : ℝ) = v
  have hvv : v * v = 1 / 2 := by
    rw [← hv, div_mul_div_comm, one_mul, hmul]
  refine ⟨?_, ?_, ?_⟩ <;>
    apply Complex.ext <;>
    simp [Complex.mul_re, Complex.mul_im] <;>
    nlinarith [hvv]

lemma rx_unitary (theta : ℝ) : (Gates.rx theta).unitary := by
  simp only [Gate.unitary, Gates.rx]
  generalize hs : Real.sin (theta / 2) = sv
  generalize hc : Real.cos (theta / 2) = cv
  have hsc : sv ^ 2 + cv ^ 2 = 1 := by
    rw [← hs, ← hc]
    exact Real.sin_sq_add_cos_sq (theta / 2)
  refine ⟨?_, ?_, ?_⟩ <;>
    apply Complex.ext <;>
    simp [Complex.mul_re, Complex.mul_im] <;>
    nlinarith [hsc]

lemma ry_unitary (theta : ℝ) : (Gates.ry theta).unitary := by
  simp only [Gate.unitary, Gates.ry]
  generalize hs : Real.sin (theta / 2) = sv
  generalize hc : Real.cos (theta / 2) = cv
  have hsc : sv ^ 2 + cv ^ 2 = 1 := by
    rw [← hs, ← hc]
    exact Real.sin_sq_add_cos_sq (theta / 2)
  refine ⟨?_, ?_, ?_⟩ <;>
    apply Complex.ext <;>
    simp [Complex.mul_re, Complex.mul_im] <;>
    nlinarith [hsc]

lemma rz_unitary (theta : ℝ) : (Gates.rz theta).unitary := by
  have key : ∀ x : ℝ, Complex.exp ⟨0, x⟩ * (starRingEnd ℂ) (Complex.exp ⟨0, x⟩) = 1 := by
    intro x
    rw [← Complex.exp_conj]
    rw [← Complex.exp_add]
    have hz : (⟨0, x⟩ : ℂ) + (starRingEnd ℂ) ⟨0, x⟩ = 0 := by
      rw [Complex.ext_iff]
      simp
    rw [hz, Complex.exp_zero]
  refine ⟨?_, ?_, ?_⟩ <;>
    simp only [Gates.rz, map_zero, mul_zero, zero_mul, add_zero, zero_add]
  · exact key (-(theta / 2))
  · exact key (theta / 2)

/-! ### Norm preservation -/

lemma sum_pair_split (n t : ℕ) (ht : t < n) (F : ℕ → ℝ) :
    ∑ k ∈ Finset.range (2 ^ n), F k =
      ∑ k ∈ (Finset.range (2 ^ n)).filter (fun k => k.testBit t = false),
        (F k + F (k ||| (1 <<< t))) := by
  rw [Finset.sum_add_distrib]
  rw [← Finset.sum_filter_add_sum_filter_not (Finset.range (2 ^ n))
    (fun k => k.testBit t = false) F]
  congr 1
  refine Finset.sum_nbij' (fun k => k ^^^ (1 <<< t)) (fun k => k ||| (1 <<< t))
    ?_ ?_ ?_ ?_ ?_
  · intro a ha
    obtain ⟨har, hab⟩ := Finset.mem_filter.mp ha
    have halt : a < 2 ^ n := Finset.mem_range.mp har
    refine Finset.mem_filter.mpr ⟨Finset.mem_range.mpr ?_, ?_⟩
    · exact xorPow_lt a n t halt ht
    · rw [xorPow_testBit]
      cases hb : a.testBit t
      · exact absurd hb hab
      · rfl
  · intro a ha
    obtain ⟨har, hab⟩ := Finset.mem_filter.mp ha
    have halt : a < 2 ^ n := Finset.mem_range.mp har
    refine Finset.mem_filter.mpr ⟨Finset.mem_range.mpr ?_, ?_⟩
    · exact lorPow_lt a n t halt ht
    · rw [lorPow_testBit]
      exact fun hfalse => Bool.noConfusion hfalse
  · intro a ha
    obtain ⟨-, hab⟩ := Finset.mem_filter.mp ha
    cases hb : a.testBit t
    · exact absurd hb hab
    · exact xorPow_lor a t hb
  · intro a ha
    obtain ⟨-, hab⟩ := Finset.mem_filter.mp ha
    exact lorPow_xor a t hab
  · intro a ha
    obtain ⟨-, hab⟩ := Finset.mem_filter.mp ha
    cases hb : a.testBit t
    · exact absurd hb hab
    · rw [xorPow_lor a t hb]

lemma totalProb_eq_sum_normSq (s : QuantumState) :
    s.totalProb = ∑ k ∈ Finset.range s.size, Complex.normSq (s.amplitudes k) := by
  rw [QuantumState.totalProb]
  refine Finset.sum_congr rfl (fun i hi => ?_)
  rw [QuantumState.get_probability, if_pos (Finset.mem_range.mp hi)]

lemma apply_single_gate_totalProb (s : QuantumState) (g : Gate) (q : ℕ)
    (hg : g.unitary) :
    (s.apply_single_gate g q).totalProb = s.totalProb := by
  by_cases hq : q < s.num_qubits
  · rw [totalProb_eq_sum_normSq, totalProb_eq_sum_normSq]
    rw [show (s.apply_single_gate g q).size = s.size from rfl, size_eq_two_pow]
    rw [sum_pair_split s.num_qubits q hq, sum_pair_split s.num_qubits q hq]
    refine Finset.sum_congr rfl (fun k hk => ?_)
    obtain ⟨hkr, hkb⟩ := Finset.mem_filter.mp hk
    have hklt : k < 2 ^ s.num_qubits := Finset.mem_range.mp hkr
    rw [apply_single_gate_pair_lo s g q hq k hklt hkb,
      apply_single_gate_pair_hi s g q hq k hklt hkb]
    exact unitary_pair_normSq g hg _ _
  · rw [apply_single_gate_oob s g q (by omega)]

lemma apply_controlled_gate_totalProb (s : QuantumState) (g : Gate) (c t : ℕ)
    (hg : g.unitary) :
    (s.apply_controlled_gate g c t).totalProb = s.totalProb := by
  rcases eq_or_ne c t with rfl | hne
  · rw [apply_controlled_gate_eq_noop]
  · by_cases hcn : c < s.num_qubits
    · by_cases htn : t < s.num_qubits
      · rw [totalProb_eq_sum_normSq, totalProb_eq_sum_normSq]
        rw [show (s.apply_controlled_gate g c t).size = s.size from rfl,
          size_eq_two_pow]
        rw [sum_pair_split s.num_qubits t htn, sum_pair_split s.num_qubits t htn]
        refine Finset.sum_congr rfl (fun k hk => ?_)
        obtain ⟨hkr, hkb⟩ := Finset.mem_filter.mp hk
        have hklt : k < 2 ^ s.num_qubits := Finset.mem_range.mp hkr
        by_cases hkc : k.testBit c = true
        · rw [apply_controlled_gate_pair_lo s g c t htn k hklt hkc hkb,
            apply_controlled_gate_pair_hi s g c t htn hne k hklt hkc hkb]
          exact unitary_pair_normSq g hg _ _
        · have hkcf : k.testBit c = false := by
            cases hb : k.testBit c
            · rfl
            · exact absurd hb hkc
          have hjc : (k ||| (1 <<< t)).testBit c = false := by
            rw [lorPow_testBit_ne k t c hne]
            exact hkcf
          rw [apply_controlled_gate_frame s g c t hne k hkcf,
            apply_controlled_gate_frame s g c t hne (k ||| (1 <<< t)) hjc]
      · rw [apply_controlled_gate_oob_target s g c t (by omega)]
    · rw [apply_controlled_gate_oob_control s g c t (by omega)]

lemma execute_append_single (n : ℕ) (ops : List Operation) (g : Gate)
    (q a b : ℕ) :
    QuantumCircuit.execute ⟨n, ops ++ [⟨OpType.SINGLE_GATE, g, q, a, b⟩]⟩ =
      (QuantumCircuit.execute ⟨n, ops⟩).apply_single_gate g q := by
  rw [execute_append]
  rfl

lemma execute_append_controlled (n : ℕ) (ops : List Operation) (g : Gate)
    (q a b : ℕ) :
    QuantumCircuit.execute ⟨n, ops ++ [⟨OpType.CONTROLLED_GATE, g, q, a, b⟩]⟩ =
      (QuantumCircuit.execute ⟨n, ops⟩).apply_controlled_gate g a b := by
  rw [execute_append]
  rfl

lemma apply_single_gate_amp_oob_index (s : QuantumState) (g : Gate) (q k : ℕ)
    (hk : s.size ≤ k) :
    (s.apply_single_gate g q).amplitudes k = s.amplitudes k := by
  rw [apply_single_gate_amp]
  rw [if_neg, if_neg]
  · rintro ⟨-, -, hlt⟩
    omega
  · rintro ⟨-, hlt, -⟩
    omega

lemma init_totalProb (n : ℕ) : (QuantumState.init n).totalProb = 1 := by
  rw [totalProb_eq_sum_normSq]
  rw [show (QuantumState.init n).size = 2 ^ n from size_eq_two_pow _]
  rw [Finset.sum_eq_single 0]
  · rw [show (QuantumState.init n).amplitudes 0 = ⟨1, 0⟩ from rfl]
    rw [Complex.normSq_mk]
    norm_num
  · intro b hb hbne
    rw [show (QuantumState.init n).amplitudes b = 0 from by
      simp [QuantumState.init, hbne]]
    exact Complex.normSq_zero
  · intro h0
    exact absurd (Finset.mem_range.mpr (Nat.pos_pow_of_pos n (by omega))) h0

lemma execute_totalProb_built (c : QuantumCircuit) (hc : BuiltFromBuilders c) :
    c.execute.totalProb = 1 := by
  induction hc with
  | empty n =>
      rw [execute_nil]
      exact init_totalProb n
  | hgate c q hb hq ih =>
      rw [show c.h q = QuantumCircuit.mk c.num_qubits (c.operations ++
        [⟨OpType.SINGLE_GATE, Gates.hadamard, q, 0, 0⟩]) from rfl]
      rw [execute_append_single]
      rw [apply_single_gate_totalProb _ _ _ hadamard_unitary]
      rw [show (QuantumCircuit.mk c.num_qubits c.operations) = c from rfl]
      exact ih
  | xgate c q hb hq ih =>
      rw [show c.x q = QuantumCircuit.mk c.num_qubits (c.operations ++
        [⟨OpType.SINGLE_GATE, Gates.pauli_x, q, 0, 0⟩]) from rfl]
      rw [execute_append_single]
      rw [apply_single_gate_totalProb _ _ _ pauli_x_unitary]
      rw [show (QuantumCircuit.mk c.num_qubits c.operations) = c from rfl]
      exact ih
  | ygate c q hb hq ih =>
      rw [show c.y q = QuantumCircuit.mk c.num_qubits (c.operations ++
        [⟨OpType.SINGLE_GATE, Gates.pauli_y, q, 0, 0⟩]) from rfl]
      rw [execute_append_single]
      rw [apply_single_gate_totalProb _ _ _ pauli_y_unitary]
      rw [show (QuantumCircuit.mk c.num_qubits c.operations) = c from rfl]
      exact ih
  | zgate c q hb hq ih =>
      rw [show c.z q = QuantumCircuit.mk c.num_qubits (c.operations ++
        [⟨OpType.SINGLE_GATE, Gates.pauli_z, q, 0, 0⟩]) from rfl]
      rw [execute_append_single]
      rw [apply_single_gate_totalProb _ _ _ pauli_z_unitary]
      rw [show (QuantumCircuit.mk c.num_qubits c.operations) = c from rfl]
      exact ih
  | rxgate c q theta hb hq ih =>
      rw [show c.rx q theta = QuantumCircuit.mk c.num_qubits (c.operations ++
        [⟨OpType.SINGLE_GATE, Gates.rx theta, q, 0, 0⟩]) from rfl]
      rw [execute_append_single]
      rw [apply_single_gate_totalProb _ _ _ (rx_unitary theta)]
      rw [show (QuantumCircuit.mk c.num_qubits c.operations) = c from rfl]
      exact ih
  | rygate c q theta hb hq ih =>
      rw [show c.ry q theta = QuantumCircuit.mk c.num_qubits (c.operations ++
        [⟨OpType.SINGLE_GATE, Gates.ry theta, q, 0, 0⟩]) from rfl]
      rw [execute_append_single]
      rw [apply_single_gate_totalProb _ _ _ (ry_unitary theta)]
      rw [show (QuantumCircuit.mk c.num_qubits c.operations) = c from rfl]
      exact ih
  | rzgate c q theta hb hq ih =>
      rw [show c.rz q theta = QuantumCircuit.mk c.num_qubits (c.operations ++
        [⟨OpType.SINGLE_GATE, Gates.rz theta, q, 0, 0⟩]) from rfl]
      rw [execute_append_single]
      rw [apply_single_gate_totalProb _ _ _ (rz_unitary theta)]
      rw [show (QuantumCircuit.mk c.num_qubits c.operations) = c from rfl]
      exact ih
  | cnotgate c ctrl tgt hb hcn htn ih =>
      rw [show c.cnot ctrl tgt = QuantumCircuit.mk c.num_qubits (c.operations ++
        [⟨OpType.CONTROLLED_GATE, Gates.pauli_x, 0, ctrl, tgt⟩]) from rfl]
      rw [execute_append_controlled]
      rw [apply_controlled_gate_totalProb _ _ _ _ pauli_x_unitary]
      rw [show (QuantumCircuit.mk c.num_qubits c.operations) = c from rfl]
      exact ih

/-! ### The claims -/

/-- C1: for every state, 2x2 gate and qubit index q below the qubit count,
apply_single_gate replaces, for each basis index i with q-th bit 0 and
partner j = i with that bit set, the amplitude pair by
new i = g00*amp i + g01*amp j and new j = g10*amp i + g11*amp j, both
right-hand sides read from the pre-update vector. -/
theorem C1_apply_single_gate_pair_update (s : QuantumState) (g : Gate) (q : ℕ)
    (hq : q < s.num_qubits) (i : ℕ) (hi : i < 2 ^ s.num_qubits)
    (hb : i.testBit q = false) :
    (s.apply_single_gate g q).amplitudes i =
      g.g00 * s.amplitudes i + g.g01 * s.amplitudes (i ||| (1 <<< q)) ∧
    (s.apply_single_gate g q).amplitudes (i ||| (1 <<< q)) =
      g.g10 * s.amplitudes i + g.g11 * s.amplitudes (i ||| (1 <<< q)) :=
  ⟨apply_single_gate_pair_lo s g q hq i hi hb,
   apply_single_gate_pair_hi s g q hq i hi hb⟩

theorem C1_apply_single_gate_pair_update_witness :
    ((QuantumState.init 1).apply_single_gate Gates.pauli_x 0).amplitudes 0 =
      Gates.pauli_x.g00 * (QuantumState.init 1).amplitudes 0 +
        Gates.pauli_x.g01 * (QuantumState.init 1).amplitudes (0 ||| (1 <<< 0)) ∧
    ((QuantumState.init 1).apply_single_gate Gates.pauli_x 0).amplitudes
        (0 ||| (1 <<< 0)) =
      Gates.pauli_x.g10 * (QuantumState.init 1).amplitudes 0 +
        Gates.pauli_x.g11 * (QuantumState.init 1).amplitudes (0 ||| (1 <<< 0)) :=
  C1_apply_single_gate_pair_update (QuantumState.init 1) Gates.pauli_x 0
    (by decide) 0 (by decide) (by decide)

/-- C2: execute starts from a freshly constructed all-zero state for the
declared qubit count, replays the stored operations in append order
(SINGLE_GATE via apply_single_gate, CONTROLLED_GATE via
apply_controlled_gate), and the result carries the circuit's qubit count.
The circuit itself is a pure value in this embedding, so execute cannot
mutate it (it is a const method in the source). -/
theorem C2_execute_replays_operations_in_order (n : ℕ) (ops : List Operation)
    (op : Operation) (c : QuantumCircuit) :
    QuantumCircuit.execute ⟨n, []⟩ = QuantumState.init n ∧
    QuantumCircuit.execute ⟨n, ops ++ [op]⟩ =
      (if op.type = OpType.SINGLE_GATE then
        (QuantumCircuit.execute ⟨n, ops⟩).apply_single_gate op.gate op.qubit
      else
        (QuantumCircuit.execute ⟨n, ops⟩).apply_controlled_gate op.gate
          op.control op.target) ∧
    c.execute.num_qubits = c.num_qubits :=
  ⟨execute_nil n, execute_append n ops op, execute_num_qubits c⟩

/-- C3: execute is a deterministic function of the circuit's qubit count and
operation sequence alone: two circuits agreeing on both fields produce
identical amplitude vectors.  Two calls on the same circuit value are the
same function application, so they agree bit for bit; there is no hidden
mutable state or randomness in the embedding of execute. -/
theorem C3_execute_deterministic (ca cb : QuantumCircuit)
    (hn : ca.num_qubits = cb.num_qubits) (hops : ca.operations = cb.operations) :
    ca.execute.amplitudes = cb.execute.amplitudes := by
  obtain ⟨n1, o1⟩ := ca
  obtain ⟨n2, o2⟩ := cb
  cases hn
  cases hops
  rfl

theorem C3_execute_deterministic_witness :
    (QuantumCircuit.mk 1 []).execute.amplitudes =
      (QuantumCircuit.mk 1 []).execute.amplitudes :=
  C3_execute_deterministic ⟨1, []⟩ ⟨1, []⟩ rfl rfl

/-- C4: apply_controlled_gate with distinct in-range control and target
leaves every index with control bit 0 unchanged, and applies the
single-gate pairing update on the target bit exactly to the pairs whose
control bit is 1. -/
theorem C4_controlled_gate_control_subspace (s : QuantumState) (g : Gate)
    (c t : ℕ) (hc : c < s.num_qubits) (ht : t < s.num_qubits) (hne : c ≠ t) :
    (∀ k, k.testBit c = false →
      (s.apply_controlled_gate g c t).amplitudes k = s.amplitudes k) ∧
    (∀ i, i < 2 ^ s.num_qubits → i.testBit c = true → i.testBit t = false →
      (s.apply_controlled_gate g c t).amplitudes i =
        g.g00 * s.amplitudes i + g.g01 * s.amplitudes (i ||| (1 <<< t)) ∧
      (s.apply_controlled_gate g c t).amplitudes (i ||| (1 <<< t)) =
        g.g10 * s.amplitudes i + g.g11 * s.amplitudes (i ||| (1 <<< t))) :=
  ⟨fun k hk => apply_controlled_gate_frame s g c t hne k hk,
   fun i hi hic hit =>
     ⟨apply_controlled_gate_pair_lo s g c t ht i hi hic hit,
      apply_controlled_gate_pair_hi s g c t ht hne i hi hic hit⟩⟩

theorem C4_controlled_gate_control_subspace_witness :
    ((QuantumState.init 2).apply_controlled_gate Gates.pauli_x 1 0).amplitudes 0 =
      (QuantumState.init 2).amplitudes 0 :=
  (C4_controlled_gate_control_subspace (QuantumState.init 2) Gates.pauli_x 1 0
    (by decide) (by decide) (by decide)).1 0 (by decide)

/-- C5: get_probability returns re^2 + im^2 of the stored amplitude for an
index inside [0, 2^n) and exactly 0 for any index at or beyond 2^n, with
no error signalled; it is a pure query and cannot mutate the state. -/
theorem C5_get_probability_spec (s : QuantumState) (index : ℕ) :
    s.get_probability index =
      if index < 2 ^ s.num_qubits then
        (s.amplitudes index).re ^ 2 + (s.amplitudes index).im ^ 2
      else 0 := by
  rw [QuantumState.get_probability, size_eq_two_pow]
  by_cases hlt : index < 2 ^ s.num_qubits
  · rw [if_pos hlt, if_pos hlt, Complex.normSq_apply]
    ring
  · rw [if_neg hlt, if_neg hlt]

/-- C6: the constructor allocates a vector of length exactly 2^n whose
amplitude at index 0 is (1, 0) and whose amplitude at every other index
is (0, 0): the all-zero basis state. -/
theorem C6_init_all_zero_basis_state (n : ℕ) :
    (QuantumState.init n).size = 2 ^ n ∧
    (QuantumState.init n).amplitudes 0 = ⟨1, 0⟩ ∧
    ∀ i, i ≠ 0 → (QuantumState.init n).amplitudes i = 0 := by
  refine ⟨size_eq_two_pow _, rfl, ?_⟩
  intro i hi
  simp [QuantumState.init, hi]

theorem C6_init_all_zero_basis_state_witness :
    (QuantumState.init 2).amplitudes 3 = 0 :=
  (C6_init_all_zero_basis_state 2).2.2 3 (by decide)

/-- C7: for any circuit built solely through the builder interface with
in-range qubit indices, the executed state's probabilities over the full
basis range sum to exactly 1 in the exact-arithmetic embedding (hence
within any floating-point tolerance such as 1e-9): every gate the
builders construct is unitary and every gate application preserves the
norm of the amplitude vector. -/
theorem C7_builder_circuits_normalized (c : QuantumCircuit)
    (hc : BuiltFromBuilders c) :
    ∑ i ∈ Finset.range (2 ^ c.num_qubits), c.execute.get_probability i = 1 := by
  have h := execute_totalProb_built c hc
  rw [QuantumState.totalProb, size_eq_two_pow, execute_num_qubits] at h
  exact h

theorem C7_builder_circuits_normalized_witness :
    ∑ i ∈ Finset.range
        (2 ^ (((QuantumCircuit.mk 2 []).x 0).cnot 0 1).num_qubits),
      (((QuantumCircuit.mk 2 []).x 0).cnot 0 1).execute.get_probability i = 1 :=
  C7_builder_circuits_normalized (((QuantumCircuit.mk 2 []).x 0).cnot 0 1)
    (BuiltFromBuilders.cnotgate ((QuantumCircuit.mk 2 []).x 0) 0 1
      (BuiltFromBuilders.xgate (QuantumCircuit.mk 2 []) 0
        (BuiltFromBuilders.empty 2) (by decide))
      (by decide) (by decide))

/-- C8: applying Pauli-X twice on the same in-range qubit restores every
amplitude exactly: the entries of X are the exact scalars 0 and 1, so the
double pair swap is the identity with no rounding. -/
theorem C8_pauli_x_involution (s : QuantumState) (q : ℕ)
    (hq : q < s.num_qubits) :
    (s.apply_single_gate Gates.pauli_x q).apply_single_gate Gates.pauli_x q
      = s := by
  refine QuantumState.ext rfl ?_
  funext k
  by_cases hk : k < 2 ^ s.num_qubits
  · by_cases hb : k.testBit q
    · have hi : k ^^^ (1 <<< q) < 2 ^ s.num_qubits :=
        xorPow_lt k s.num_qubits q hk hq
      have hbi : (k ^^^ (1 <<< q)).testBit q = false := by
        rw [xorPow_testBit, hb]
        rfl
      have hkk : (k ^^^ (1 <<< q)) ||| (1 <<< q) = k := xorPow_lor k q hb
      have e0 := apply_single_gate_pair_lo s Gates.pauli_x q hq
        (k ^^^ (1 <<< q)) hi hbi
      have e1 := apply_single_gate_pair_hi s Gates.pauli_x q hq
        (k ^^^ (1 <<< q)) hi hbi
      have e2 := apply_single_gate_pair_hi (s.apply_single_gate Gates.pauli_x q)
        Gates.pauli_x q hq (k ^^^ (1 <<< q)) hi hbi
      rw [hkk] at e0 e1 e2
      rw [e2, e0, e1]
      simp [Gates.pauli_x]
    · have hbf : k.testBit q = false := by
        cases hbb : k.testBit q
        · rfl
        · exact absurd hbb hb
      have e0 := apply_single_gate_pair_lo s Gates.pauli_x q hq k hk hbf
      have e1 := apply_single_gate_pair_hi s Gates.pauli_x q hq k hk hbf
      have e2 := apply_single_gate_pair_lo (s.apply_single_gate Gates.pauli_x q)
        Gates.pauli_x q hq k hk hbf
      rw [e2, e0, e1]
      simp [Gates.pauli_x]
  · have hk1 : s.size ≤ k := by
      rw [size_eq_two_pow]
      omega
    rw [apply_single_gate_amp_oob_index (s.apply_single_gate Gates.pauli_x q)
      Gates.pauli_x q k hk1]
    rw [apply_single_gate_amp_oob_index s Gates.pauli_x q k hk1]

theorem C8_pauli_x_involution_witness :
    ((QuantumState.init 1).apply_single_gate Gates.pauli_x 0).apply_single_gate
      Gates.pauli_x 0 = QuantumState.init 1 :=
  C8_pauli_x_involution (QuantumState.init 1) 0 (by decide)

/-- C9 counterexample: applying Pauli-X at the out-of-range qubit index 1 on
a freshly constructed 1-qubit state leaves the state exactly equal to the
original: the amplitude vector is neither corrupted nor incorrectly
paired, contradicting the claim that an out-of-range index produces
undefined or incorrect amplitude pairing that may silently corrupt the
vector. -/
theorem C9_counterexample_oob_is_noop :
    (QuantumState.init 1).apply_single_gate Gates.pauli_x 1 =
      QuantumState.init 1 :=
  apply_single_gate_oob (QuantumState.init 1) Gates.pauli_x 1 (by decide)

/-- C9 (amended): no bounds checking is performed and no error is reported,
but a gate application whose qubit index (or control or target index) is
at or beyond the declared qubit count is a silent no-op: the j < size
guard inside the loop skips every pair, so the amplitude vector is left
exactly unchanged rather than corrupted. -/
theorem C9_oob_gate_application_noop (s : QuantumState) (g : Gate)
    (q ctrl tgt : ℕ) (hq : s.num_qubits ≤ q)
    (hct : s.num_qubits ≤ ctrl ∨ s.num_qubits ≤ tgt) :
    s.apply_single_gate g q = s ∧ s.apply_controlled_gate g ctrl tgt = s := by
  constructor
  · exact apply_single_gate_oob s g q hq
  · rcases hct with hcc | htt
    · exact apply_controlled_gate_oob_control s g ctrl tgt hcc
    · exact apply_controlled_gate_oob_target s g ctrl tgt htt

theorem C9_oob_gate_application_noop_witness :
    (QuantumState.init 1).apply_single_gate Gates.pauli_x 2 =
        QuantumState.init 1 ∧
      (QuantumState.init 1).apply_controlled_gate Gates.pauli_x 1 0 =
        QuantumState.init 1 :=
  C9_oob_gate_application_noop (QuantumState.init 1) Gates.pauli_x 2 1 0
    (by decide) (Or.inl (by decide))

/-- C10: apply_controlled_gate with control equal to target changes nothing,
since no basis index can have bit q both 1 (control condition) and 0
(target pairing condition); consequently appending cnot(q, q) to any
circuit leaves the executed state unchanged. -/
theorem C10_cnot_equal_control_target_noop (s : QuantumState) (g : Gate)
    (q : ℕ) (c : QuantumCircuit) :
    s.apply_controlled_gate g q q = s ∧ (c.cnot q q).execute = c.execute := by
  refine ⟨apply_controlled_gate_eq_noop s g q, ?_⟩
  obtain ⟨n, ops⟩ := c
  rw [show (QuantumCircuit.mk n ops).cnot q q = QuantumCircuit.mk n (ops ++
    [⟨OpType.CONTROLLED_GATE, Gates.pauli_x, 0, q, q⟩]) from rfl]
  rw [execute_append_controlled]
  rw [apply_controlled_gate_eq_noop]
